import Mathlib

/-
Verification of the mula scheduler core: the task model and its timing
metrics (scheduler/models/tasks.py), the cron helper
(scheduler/utils/cron.py), and the priority queue / scheduler lifecycle
contract exercised by tests/integration/test_api.py and
tests/integration/test_scheduler.py.

Timestamps (Python datetime values) are modelled as integers (epoch
instants); timedelta values are integer differences.  UUIDs are modelled
as natural numbers.  Opaque payload data is modelled as a string.
-/

namespace Mula

/-! ## Task model (scheduler/models/tasks.py) -/

/-- TaskStatus enum from scheduler/models/tasks.py. -/
inductive TaskStatus where
  | pending
  | queued
  | dispatched
  | running
  | completed
  | failed
  | cancelled
deriving DecidableEq, Repr, BEq

/-- TaskEventType enum from scheduler/models/tasks.py; the only event type
is STATUS_CHANGE. -/
inductive TaskEventType where
  | status_change
deriving DecidableEq, Repr, BEq

/-- The event_data dict of a STATUS_CHANGE TaskEvent holds the statuses
involved in the transition. -/
structure TaskEventData where
  from_status : TaskStatus
  to_status : TaskStatus
deriving DecidableEq, Repr, BEq

/-- TaskEvent from scheduler/models/tasks.py (id and task_id omitted: the
timing metrics read only event_type, event_data and timestamp). -/
structure TaskEvent where
  event_type : TaskEventType
  event_data : TaskEventData
  timestamp : Int
deriving DecidableEq, Repr, BEq

/-- Task from scheduler/models/tasks.py, restricted to the fields the
timing metrics touch (p_item is opaque here). -/
structure Task where
  id : Nat
  scheduler_id : String
  status : TaskStatus
  events : List TaskEvent
  created_at : Int
  modified_at : Int
deriving DecidableEq, Repr

/-- The scan pattern of the metric properties: iterate over the events and
break at the first one satisfying the condition, yielding its timestamp
(the Python loop `for event in self.events: if cond: t = event.timestamp;
break`). -/
def firstEventTimestamp (p : TaskEvent → Bool) : List TaskEvent → Option Int
  | [] => none
  | e :: rest => if p e then some e.timestamp else firstEventTimestamp p rest

/-- The condition `event.event_type == STATUS_CHANGE and
event.event_data["to_status"] == s`. -/
def isToStatus (s : TaskStatus) (e : TaskEvent) : Bool :=
  e.event_type == TaskEventType.status_change && e.event_data.to_status == s

/-- The condition `event.event_type == STATUS_CHANGE and
event.event_data["to_status"] in [COMPLETED, FAILED]`. -/
def isToFinished (e : TaskEvent) : Bool :=
  e.event_type == TaskEventType.status_change &&
    (e.event_data.to_status == TaskStatus.completed ||
      e.event_data.to_status == TaskStatus.failed)

/-- Task.queued (scheduler/models/tasks.py): time from the first QUEUED
status-change event to the first DISPATCHED status-change event; None when
either is missing. -/
def Task.queued (t : Task) : Option Int :=
  let start_time := firstEventTimestamp (isToStatus TaskStatus.queued) t.events
  let end_time := firstEventTimestamp (isToStatus TaskStatus.dispatched) t.events
  match start_time, end_time with
  | some s, some e => some (e - s)
  | _, _ => none

/-- Task.runtime (scheduler/models/tasks.py): time from the first
DISPATCHED status-change event to the last COMPLETED-or-FAILED
status-change event (the Python code scans `reversed(self.events)` for the
latter); None when either is missing. -/
def Task.runtime (t : Task) : Option Int :=
  let start_time := firstEventTimestamp (isToStatus TaskStatus.dispatched) t.events
  let end_time := firstEventTimestamp isToFinished t.events.reverse
  match start_time, end_time with
  | some s, some e => some (e - s)
  | _, _ => none

/-- Task.duration (scheduler/models/tasks.py): time from the first QUEUED
status-change event to the last COMPLETED-or-FAILED status-change event;
None when either is missing. -/
def Task.duration (t : Task) : Option Int :=
  let start_time := firstEventTimestamp (isToStatus TaskStatus.queued) t.events
  let end_time := firstEventTimestamp isToFinished t.events.reverse
  match start_time, end_time with
  | some s, some e => some (e - s)
  | _, _ => none

/-! ## BoefjeTask content hash (scheduler/models/tasks.py) -/

/-- Boefje plugin reference; BoefjeTask.hash reads only its id, the other
fields stand in for the rest of the model. -/
structure Boefje where
  id : String
  name : Option String
  version : Option String
deriving DecidableEq, Repr

/-- Normalizer plugin reference (element type of BoefjeTask.dispatches). -/
structure Normalizer where
  id : String
  name : Option String
deriving DecidableEq, Repr

/-- BoefjeTask from scheduler/models/tasks.py. -/
structure BoefjeTask where
  id : Nat
  boefje : Boefje
  input_ooi : Option String
  organization : String
  dispatches : List Normalizer
deriving DecidableEq, Repr

/-- Python truthiness of the Optional[str] field `input_ooi`: None and the
empty string are falsy. -/
def pyTruthy : Option String → Bool
  | none => false
  | some s => !(s == "")

/-- BoefjeTask.hash (scheduler/models/tasks.py).  `mmh3_hex` abstracts the
external mmh3 library call `mmh3.hash_bytes(...).hex()`; the source
builds the hashed text with an f-string over input_ooi, boefje.id and
organization when input_ooi is truthy, and over boefje.id and organization
otherwise. -/
def BoefjeTask.hash (mmh3_hex : String → String) (t : BoefjeTask) : String :=
  if pyTruthy t.input_ooi then
    mmh3_hex ((t.input_ooi.getD "") ++ "-" ++ t.boefje.id ++ "-" ++ t.organization)
  else
    mmh3_hex (t.boefje.id ++ "-" ++ t.organization)

/-! ## Cron helper (scheduler/utils/cron.py) -/

/-- Shallow embedding of `next_run` from scheduler/utils/cron.py.
`get_next` abstracts the external croniter library
(`croniter(expression, start_time).get_next(datetime)`).  In Python the
default value `start_time=datetime.now(timezone.utc)` is evaluated exactly
once, when the module is imported; `moduleImportTime` is that captured
instant.  A call that omits start_time therefore evaluates the cron
expression from the module import time, not from the wall clock of the
call. -/
def next_run (get_next : String → Int → Int) (moduleImportTime : Int)
    (expression : String) (start_time : Option Int) : Int :=
  get_next expression (start_time.getD moduleImportTime)

/-- The spec's reading of `next_run` when start_time is omitted: the next
trigger instant is computed from the current time of the call. -/
def next_run_from_now (get_next : String → Int → Int) (callTime : Int)
    (expression : String) : Int :=
  get_next expression callTime

/-- A concrete stand-in for croniter on the expression "* * * * *": the
next minute boundary strictly after the reference time. -/
def minutely (_expression : String) (t : Int) : Int :=
  60 * (t / 60) + 60

/-! ## Priority queue

Modelled from the spec: the priority queue implementation
(scheduler/queues/pq.py) is not among the provided sources; only its
models, its REST tests (tests/integration/test_api.py) and its scheduler
tests are.  The structure below follows the spec's design (§4.1, §9): a
bag of tagged entries `{priority, sequence, item, removed}` ordered by
`(priority, sequence)` with lazy deletion, plus an entry-finder index
mapping content hash to the sequence number of the current live entry.
Heap placement is abstracted: insertion appends a slot and pop extracts
the `(priority, sequence)`-minimal slot, which is observably the heap
discipline.  Two behaviours are pinned by the repository's own tests
rather than by the spec text, and the definitions follow the tests:
re-pushing an unchanged item when replace, updates and priority updates
are all disallowed is a conflict (test_push_replace_not_allowed), and the
capacity check only rejects new items whose priority is greater than 1
(test_push_queue_full and test_push_queue_full_high_priority). -/

/-- PrioritizedItem from the data model (§3): id, priority, content hash
of the payload, and the opaque payload itself. -/
structure PrioritizedItem where
  id : Nat
  priority : Int
  hash : String
  data : String
deriving DecidableEq, Repr

/-- Modelled from the spec (§9): the tagged heap entry
`{sequence, priority, hash, payload, removed}`; hash and payload live
inside the carried item. -/
structure Entry where
  priority : Int
  sequence : Nat
  p_item : PrioritizedItem
  removed : Bool
deriving DecidableEq, Repr

/-- Association-list lookup: value of the first pair bound to the key
(Python dict read). -/
def lookupKey [DecidableEq κ] (k : κ) : List (κ × β) → Option β
  | [] => none
  | p :: rest => if p.1 = k then some p.2 else lookupKey k rest

/-- Association-list deletion: drop the first pair bound to the key
(Python `del d[k]` on a dict, which holds at most one pair per key). -/
def eraseKey [DecidableEq κ] (k : κ) : List (κ × β) → List (κ × β)
  | [] => []
  | p :: rest => if p.1 = k then rest else p :: eraseKey k rest

/-- Modelled from the spec: the priority queue state.  `entry_finder` maps
a content hash to the sequence number of its current live entry;
`counter` is the monotonically increasing insertion sequence. -/
structure PriorityQueue where
  maxsize : Nat
  allow_replace : Bool
  allow_updates : Bool
  allow_priority_updates : Bool
  counter : Nat
  heap : List Entry
  entry_finder : List (String × Nat)
deriving DecidableEq, Repr

/-- Modelled from the spec (§4.1): qsize is the count of live entries,
maintained through the entry-finder index (one binding per live entry). -/
def PriorityQueue.qsize (q : PriorityQueue) : Nat :=
  q.entry_finder.length

/-- Number of heap slots that are not flagged removed. -/
def countLive (heap : List Entry) : Nat :=
  (heap.filter (fun e => !e.removed)).length

/-- Modelled from the spec: the queue is at capacity when the live count
has reached maxsize. -/
def PriorityQueue.full (q : PriorityQueue) : Bool :=
  q.maxsize ≤ q.qsize

/-- Look up the live entry holding a given content hash: consult the
entry finder for its sequence number, then fetch that slot. -/
def PriorityQueue.find_entry (q : PriorityQueue) (h : String) : Option Entry :=
  match lookupKey h q.entry_finder with
  | none => none
  | some seq => q.heap.find? (fun e => e.sequence == seq)

/-- Flag the slot carrying the given sequence number as removed (lazy
deletion; the slot stays in the heap). -/
def flagRemoved (seq : Nat) (heap : List Entry) : List Entry :=
  heap.map (fun e => if e.sequence = seq then { e with removed := true } else e)

/-- Modelled from the spec (§4.1): removing an item flags its heap entry
removed and drops its binding from the entry finder. -/
def PriorityQueue.remove (q : PriorityQueue) (h : String) : PriorityQueue :=
  match lookupKey h q.entry_finder with
  | none => q
  | some seq =>
    { q with
        heap := flagRemoved seq q.heap
        entry_finder := eraseKey h q.entry_finder }

/-- Modelled from the spec (§4.1): insert an item with a fresh sequence
number, recording it in the entry finder. -/
def PriorityQueue.insertEntry (q : PriorityQueue) (it : PrioritizedItem) : PriorityQueue :=
  { q with
      heap := q.heap ++ [{ priority := it.priority, sequence := q.counter,
                           p_item := it, removed := false }]
      entry_finder := q.entry_finder ++ [(it.hash, q.counter)]
      counter := q.counter + 1 }

/-- Outcome of a push, as observed through the REST layer in
tests/integration/test_api.py: 201 success, 409 conflict with a detail
message, or 429 queue-full. -/
inductive PushResult where
  | success
  | conflict (detail : String)
  | queueFull
deriving DecidableEq, Repr

/-- Conflict detail preserved verbatim from test_push_replace_not_allowed. -/
def msg_replace_not_allowed : String :=
  "Item already on queue, we\x27re not allowed to replace the item that is already on the queue."

/-- Conflict detail preserved verbatim from test_push_updates_not_allowed. -/
def msg_update_not_allowed : String :=
  "Item already on queue, and item changed, we\x27re not allowed to update the item that is already on the queue."

/-- Conflict detail preserved verbatim from
test_push_priority_updates_not_allowed. -/
def msg_priority_update_not_allowed : String :=
  "Item already on queue, and priority changed, we\x27re not allowed to update the priority of the item that is already on the queue."

/-- Modelled from the spec (§4.1 admission policy), with the two
test-pinned behaviours noted above: push computes whether a live entry
with the same hash exists and either inserts, replaces, no-ops, or
rejects.  The returned state is the queue after the operation (unchanged
on rejection). -/
def PriorityQueue.push (q : PriorityQueue) (it : PrioritizedItem) : PushResult × PriorityQueue :=
  match q.find_entry it.hash with
  | none =>
    -- new hash: capacity check (priority 1 items are admitted even when
    -- full, per test_push_queue_full_high_priority)
    if q.full && decide (1 < it.priority) then (PushResult.queueFull, q)
    else (PushResult.success, q.insertEntry it)
  | some old =>
    let item_changed := !(it.data == old.p_item.data)
    let priority_changed := !(it.priority == old.priority)
    if q.allow_replace then
      (PushResult.success, (q.remove it.hash).insertEntry it)
    else if !item_changed && !priority_changed then
      -- identical resubmission: conflict when updates are also disallowed
      -- (test_push_replace_not_allowed), otherwise a no-op success (§4.1)
      if !q.allow_updates && !q.allow_priority_updates then
        (PushResult.conflict msg_replace_not_allowed, q)
      else (PushResult.success, q)
    else if item_changed && !q.allow_updates then
      (PushResult.conflict msg_update_not_allowed, q)
    else if priority_changed && !q.allow_priority_updates then
      (PushResult.conflict msg_priority_update_not_allowed, q)
    else
      (PushResult.success, (q.remove it.hash).insertEntry it)

/-- Lexicographic heap order on `(priority, sequence)`: lower priority
value first, insertion sequence as the FIFO tie-break. -/
def entryLE (a b : Entry) : Bool :=
  a.priority < b.priority || (a.priority == b.priority && a.sequence ≤ b.sequence)

/-- The `(priority, sequence)`-minimal heap slot (the heap root). -/
def minEntry : List Entry → Option Entry
  | [] => none
  | e :: rest =>
    match minEntry rest with
    | none => some e
    | some m => if entryLE e m then some e else some m

/-- Physically delete the first slot carrying the given sequence number
(a heappop of that slot). -/
def eraseSeq (seq : Nat) : List Entry → List Entry
  | [] => []
  | e :: rest => if e.sequence = seq then rest else e :: eraseSeq seq rest

/-- Modelled from the spec (§4.1 pop): repeatedly extract the heap root;
flagged-removed slots are discarded (this is where lazy deletions are
reclaimed) until a live entry surfaces, which is removed from the heap and
the entry finder and returned.  `fuel` bounds the loop by the heap size. -/
def popGo : Nat → PriorityQueue → Option PrioritizedItem × PriorityQueue
  | 0, q => (none, q)
  | fuel + 1, q =>
    match minEntry q.heap with
    | none => (none, q)
    | some m =>
      if m.removed then
        popGo fuel { q with heap := eraseSeq m.sequence q.heap }
      else
        (some m.p_item,
          { q with
              heap := eraseSeq m.sequence q.heap
              entry_finder := eraseKey m.p_item.hash q.entry_finder })

/-- Modelled from the spec (§4.1): pop the highest-priority live item, or
none when no live item remains. -/
def PriorityQueue.pop (q : PriorityQueue) : Option PrioritizedItem × PriorityQueue :=
  popGo q.heap.length q

/-- A freshly constructed, empty queue. -/
def emptyQueue (maxsize : Nat) (ar au apu : Bool) : PriorityQueue :=
  { maxsize := maxsize, allow_replace := ar, allow_updates := au,
    allow_priority_updates := apu, counter := 0, heap := [], entry_finder := [] }

/-- Queue states reachable from a fresh queue by sequences of push and pop
(replace and priority-update cycles are the duplicate-hash push cases). -/
inductive Reachable : PriorityQueue → Prop where
  | init (maxsize : Nat) (ar au apu : Bool) : Reachable (emptyQueue maxsize ar au apu)
  | push (q : PriorityQueue) (it : PrioritizedItem) :
      Reachable q → Reachable (q.push it).2
  | pop (q : PriorityQueue) : Reachable q → Reachable q.pop.2

/-! ## Scheduler lifecycle

Modelled from the spec: the Scheduler class (scheduler/schedulers/) is
not among the provided sources; only its tests
(tests/integration/test_scheduler.py) are.  The model binds one priority
queue, an enabled flag, and the task store (task id to status; in the
tests the task id equals the pushed item id).  The background listener
and dispatcher threads are real-time concurrency and are outside the
shallow embedding; disable() is modelled by its post-state on the queue
and the store. -/

/-- Task-status error surfaced by the scheduler layer: NotAllowedError on
a disabled scheduler, or the queue's own rejection. -/
inductive SchedulerError where
  | notAllowedError
  | fromQueue (r : PushResult)
deriving DecidableEq, Repr

/-- Modelled from the spec: one scheduler instance (queue, enabled flag,
task store). -/
structure SchedulerState where
  queue : PriorityQueue
  enabled : Bool
  tasks : List (Nat × TaskStatus)
deriving DecidableEq, Repr

/-- Update the status of every stored record of the given task id (the
store's update_task by primary key). -/
def setTaskStatus (id : Nat) (st : TaskStatus) (tasks : List (Nat × TaskStatus)) :
    List (Nat × TaskStatus) :=
  tasks.map (fun p => if p.1 = id then (p.1, st) else p)

/-- Create the task record if absent, else update its status (push
creates or refreshes the Task row). -/
def upsertTask (id : Nat) (st : TaskStatus) (tasks : List (Nat × TaskStatus)) :
    List (Nat × TaskStatus) :=
  if (lookupKey id tasks).isSome then setTaskStatus id st tasks
  else tasks ++ [(id, st)]

/-- Modelled from the spec (§4.3): push_item_to_queue rejects with
NotAllowedError when the scheduler is disabled, otherwise delegates to
the queue; on queue success the Task is marked QUEUED in storage. -/
def SchedulerState.push_item_to_queue (s : SchedulerState) (it : PrioritizedItem) :
    Option SchedulerError × SchedulerState :=
  if !s.enabled then (some SchedulerError.notAllowedError, s)
  else
    match s.queue.push it with
    | (PushResult.success, q) =>
      (none, { s with queue := q, tasks := upsertTask it.id TaskStatus.queued s.tasks })
    | (r, q) => (some (SchedulerError.fromQueue r), { s with queue := q })

/-- Modelled from the spec (§4.2 drain): pop live items one by one,
transitioning each popped item's Task to CANCELLED in storage; `fuel`
bounds the loop by the heap size. -/
def drainGo : Nat → SchedulerState → SchedulerState
  | 0, s => s
  | fuel + 1, s =>
    match s.queue.pop with
    | (none, q) => { s with queue := q }
    | (some it, q) =>
      drainGo fuel
        { s with queue := q, tasks := setTaskStatus it.id TaskStatus.cancelled s.tasks }

/-- Modelled from the spec (§4.3): disable() stops the production
routines (not modelled), clears the enabled flag, and drains the queue,
cancelling every remaining live item's Task. -/
def SchedulerState.disable (s : SchedulerState) : SchedulerState :=
  drainGo s.queue.heap.length { s with enabled := false }

/-- Modelled from the spec (§4.3): enable() sets the enabled flag and
restarts the production routines (not modelled); it does not requeue
cancelled tasks. -/
def SchedulerState.enable (s : SchedulerState) : SchedulerState :=
  { s with enabled := true }

/-- Modelled from the spec (§4.3): is_enabled() returns the flag. -/
def SchedulerState.is_enabled (s : SchedulerState) : Bool :=
  s.enabled

/-! ## Schedules and the task signal handler -/

/-- Schedule from the data model (§3). -/
structure Schedule where
  id : Nat
  scheduler_id : String
  hash : Option String
  data : String
  enabled : Bool
  cron_expression : Option String
  deadline_at : Option Int
  created_at : Int
  modified_at : Int
deriving DecidableEq, Repr

/-- Modelled from the spec (§4.3 signal_handler_task): on a COMPLETED or
FAILED task whose Schedule has a cron expression, recompute deadline_at
from the evaluator; when the evaluator rejects the expression (modelled
by `get_next` returning none, the validation failure of §4.4), the
Schedule self-disables with its deadline untouched, and the failure is
not propagated (the function is total).  On a non-terminal status or an
absent Schedule nothing changes. -/
def signal_handler_task (get_next : String → Int → Option Int) (now : Int)
    (status : TaskStatus) (schedule : Option Schedule) : Option Schedule :=
  match schedule with
  | none => none
  | some sch =>
    if status = TaskStatus.completed ∨ status = TaskStatus.failed then
      match sch.cron_expression with
      | some expr =>
        match get_next expr now with
        | some t => some { sch with deadline_at := some t }
        | none => some { sch with enabled := false }
      | none => some sch
    else some sch

/-! ## Queue invariant and concrete fixtures -/

/-- Consistency of the lazy-deletion heap with the entry-finder index:
the finder holds exactly one binding per live heap slot, bindings point
at live slots by sequence number, sequence numbers are unique and below
the counter, and finder keys are unique.  `size_eq` is the qsize
property of §4.1. -/
structure QueueInv (q : PriorityQueue) : Prop where
  size_eq : q.entry_finder.length = countLive q.heap
  live_has_binding : ∀ e ∈ q.heap, e.removed = false →
    ∃ p ∈ q.entry_finder, p.1 = e.p_item.hash
  binding_live : ∀ p ∈ q.entry_finder,
    ∃ e ∈ q.heap, e.removed = false ∧ e.sequence = p.2 ∧ e.p_item.hash = p.1
  binding_points : ∀ e ∈ q.heap, e.removed = false →
    ∀ p ∈ q.entry_finder, p.1 = e.p_item.hash → p.2 = e.sequence
  seq_nodup : (q.heap.map (fun e => e.sequence)).Nodup
  keys_nodup : (q.entry_finder.map Prod.fst).Nodup
  seq_lt : ∀ e ∈ q.heap, e.sequence < q.counter

/-- A queue with replace, updates and priority updates all disallowed, as
configured by test_push_replace_not_allowed. -/
def qAllFalse : PriorityQueue := emptyQueue 1000 false false false

/-- The first pushed item of the API tests. -/
def itemA : PrioritizedItem := { id := 1, priority := 1, hash := "ha", data := "da" }

/-- qAllFalse after itemA was admitted. -/
def qA : PriorityQueue := (qAllFalse.push itemA).2

/-- A maxsize-1 queue already holding itemA (priority 1), as in
test_push_queue_full and test_push_queue_full_high_priority. -/
def qFull1 : PriorityQueue := ((emptyQueue 1 false false true).push itemA).2

/-- A distinct item of priority 1. -/
def itemB : PrioritizedItem := { id := 2, priority := 1, hash := "hb", data := "db" }

/-- A distinct item of priority 2. -/
def itemC : PrioritizedItem := { id := 3, priority := 2, hash := "hc", data := "dc" }

/-- itemA resubmitted with an updated payload (same content hash), as in
test_push_updates_allowed. -/
def itemAUpd : PrioritizedItem := { id := 1, priority := 1, hash := "ha", data := "updated-name" }

/-- An updates-allowed queue holding itemA. -/
def qU : PriorityQueue := ((emptyQueue 1000 false true true).push itemA).2

/-- qU after itemA was replaced by its updated payload (one replace
cycle: the old slot is flagged removed, a new slot is live). -/
def qU2 : PriorityQueue := (qU.push itemAUpd).2

/-- A queue holding two distinct live items. -/
def qTwo : PriorityQueue := (qU.push itemB).2

/-- An enabled scheduler with two live queue items whose tasks are
QUEUED in storage, as arranged by test_disable_scheduler. -/
def sTwo : SchedulerState :=
  { queue := qTwo, enabled := true,
    tasks := [(1, TaskStatus.queued), (2, TaskStatus.queued)] }

/-! ## Timing-metric theorems (C9) -/

/-- The break-at-first-match scan yields the timestamp of the first
matching event. -/
theorem firstEventTimestamp_eq_find? (p : TaskEvent → Bool) (l : List TaskEvent) :
    firstEventTimestamp p l = (l.find? p).map TaskEvent.timestamp := by
  induction l with
  | nil => rfl
  | cons e rest ih =>
    by_cases h : p e
    · simp [firstEventTimestamp, List.find?_cons, h]
    · simp [firstEventTimestamp, List.find?_cons, h, ih]

/-- Scanning the reversed log for the first match finds the last matching
event of the log. -/
theorem find?_reverse_eq_getLast?_filter (p : TaskEvent → Bool) (l : List TaskEvent) :
    l.reverse.find? p = (l.filter p).getLast? := by
  induction l with
  | nil => rfl
  | cons e rest ih =>
    rw [List.reverse_cons, List.find?_append, ih, List.filter_cons]
    cases hf : rest.filter p with
    | nil =>
      by_cases h : p e <;> simp [hf, List.find?, h]
    | cons x xs =>
      have hgl : ∃ y, (x :: xs).getLast? = some y := by
        cases hgl2 : (x :: xs).getLast? with
        | none => simp [List.getLast?_eq_none_iff] at hgl2
        | some y => exact ⟨y, rfl⟩
      obtain ⟨y, hy⟩ := hgl
      by_cases h : p e <;> simp [hf, h, hy, List.getLast?_cons_cons, Option.or]

/-- C9: for every Task, `queued` is the timestamp of the first
STATUS_CHANGE event with to_status DISPATCHED minus that of the first
with to_status QUEUED; `runtime` is the timestamp of the last event with
to_status COMPLETED or FAILED minus that of the first DISPATCHED event;
`duration` is the timestamp of the last COMPLETED/FAILED event minus that
of the first QUEUED event; each metric is None when either endpoint event
is missing from the log. -/
theorem task_timing_metrics_spec (t : Task) :
    (t.queued = match t.events.find? (isToStatus TaskStatus.queued),
        t.events.find? (isToStatus TaskStatus.dispatched) with
      | some a, some b => some (b.timestamp - a.timestamp)
      | _, _ => none)
    ∧ (t.runtime = match t.events.find? (isToStatus TaskStatus.dispatched),
        (t.events.filter isToFinished).getLast? with
      | some a, some b => some (b.timestamp - a.timestamp)
      | _, _ => none)
    ∧ (t.duration = match t.events.find? (isToStatus TaskStatus.queued),
        (t.events.filter isToFinished).getLast? with
      | some a, some b => some (b.timestamp - a.timestamp)
      | _, _ => none) := by
  refine ⟨?_, ?_, ?_⟩
  · rw [Task.queued, firstEventTimestamp_eq_find?, firstEventTimestamp_eq_find?]
    cases t.events.find? (isToStatus TaskStatus.queued) <;>
      cases t.events.find? (isToStatus TaskStatus.dispatched) <;> rfl
  · rw [Task.runtime, firstEventTimestamp_eq_find?, firstEventTimestamp_eq_find?,
      find?_reverse_eq_getLast?_filter]
    cases t.events.find? (isToStatus TaskStatus.dispatched) <;>
      cases (t.events.filter isToFinished).getLast? <;> rfl
  · rw [Task.duration, firstEventTimestamp_eq_find?, firstEventTimestamp_eq_find?,
      find?_reverse_eq_getLast?_filter]
    cases t.events.find? (isToStatus TaskStatus.queued) <;>
      cases (t.events.filter isToFinished).getLast? <;> rfl

/-! ## BoefjeTask hash theorems (C10) -/

/-- C10: the BoefjeTask content hash is a function of input_ooi,
boefje.id and organization alone, whatever the external hash function:
two tasks agreeing on those three fields hash identically regardless of
id, dispatches and the remaining boefje fields; and with input_ooi None
the hash depends only on boefje.id and organization. -/
theorem boefje_task_hash_payload_agnostic (mmh3_hex : String → String)
    (t₁ t₂ : BoefjeTask) (hooi : t₁.input_ooi = t₂.input_ooi)
    (hboefje : t₁.boefje.id = t₂.boefje.id) (horg : t₁.organization = t₂.organization) :
    t₁.hash mmh3_hex = t₂.hash mmh3_hex
    ∧ (t₁.input_ooi = none →
        t₁.hash mmh3_hex = mmh3_hex (t₁.boefje.id ++ "-" ++ t₁.organization)) := by
  constructor
  · rw [BoefjeTask.hash, BoefjeTask.hash, hooi, hboefje, horg]
  · intro hnone
    rw [BoefjeTask.hash, hnone]
    rfl

/-- Concrete instantiation of the hash-agreement theorem: two tasks
differing in id, dispatches and boefje name but agreeing on input_ooi,
boefje.id and organization. -/
theorem boefje_task_hash_payload_agnostic_witness :
    BoefjeTask.hash (fun s => s)
        { id := 1, boefje := { id := "dns-records", name := some "DNS", version := none },
          input_ooi := some "internet", organization := "org1", dispatches := [] }
      = BoefjeTask.hash (fun s => s)
        { id := 2, boefje := { id := "dns-records", name := none, version := some "2" },
          input_ooi := some "internet", organization := "org1",
          dispatches := [{ id := "n1", name := none }] }
    ∧ (some "internet" = (none : Option String) →
        BoefjeTask.hash (fun s => s)
          { id := 1, boefje := { id := "dns-records", name := some "DNS", version := none },
            input_ooi := some "internet", organization := "org1", dispatches := [] }
        = "dns-records" ++ "-" ++ "org1") :=
  boefje_task_hash_payload_agnostic (fun s => s)
    { id := 1, boefje := { id := "dns-records", name := some "DNS", version := none },
      input_ooi := some "internet", organization := "org1", dispatches := [] }
    { id := 2, boefje := { id := "dns-records", name := none, version := some "2" },
      input_ooi := some "internet", organization := "org1",
      dispatches := [{ id := "n1", name := none }] }
    rfl rfl rfl

/-! ## Cron default-argument theorem (C8) -/

/-- C8 failing input: the module is imported at time 0; a call without an
explicit start_time is made at time 3600.  The code computes the next
trigger from the captured import time (returning 60, an instant already
in the past at the call), while the next trigger from the call's own
current time is 3660: the Python default argument
`start_time=datetime.now(timezone.utc)` is evaluated once at module
import, so the claimed from-now behaviour does not hold. -/
theorem next_run_default_start_time_is_import_time :
    next_run minutely 0 "* * * * *" none = 60
    ∧ next_run_from_now minutely 3600 "* * * * *" = 3660
    ∧ next_run minutely 0 "* * * * *" none ≠ next_run_from_now minutely 3600 "* * * * *" := by
  refine ⟨rfl, rfl, ?_⟩
  decide

/-! ## Signal-handler theorems (C6, C7) -/

/-- C6: on a COMPLETED or FAILED task whose Schedule's cron expression is
rejected by the evaluator, signal_handler_task leaves deadline_at (and
every field except enabled) unchanged and clears the enabled flag; no
error escapes (the handler is a total function). -/
theorem signal_handler_malformed_cron_disables (get_next : String → Int → Option Int)
    (now : Int) (status : TaskStatus) (sch : Schedule) (expr : String)
    (hterm : status = TaskStatus.completed ∨ status = TaskStatus.failed)
    (hexpr : sch.cron_expression = some expr)
    (hfail : get_next expr now = none) :
    signal_handler_task get_next now status (some sch) = some { sch with enabled := false }
    ∧ (Schedule.deadline_at { sch with enabled := false }) = sch.deadline_at := by
  refine ⟨?_, rfl⟩
  rcases hterm with h | h <;> subst h <;> simp [signal_handler_task, hexpr, hfail]

/-- Concrete instantiation of the malformed-cron theorem: a COMPLETED
task with the schedule of test_signal_handler_malformed_cron_expression
(cron ".&^%$#", which the evaluator rejects). -/
theorem signal_handler_malformed_cron_disables_witness :
    signal_handler_task (fun _ _ => none) 100 TaskStatus.completed
        (some { id := 7, scheduler_id := "s1", hash := some "h", data := "d",
                enabled := true, cron_expression := some ".&^%$#",
                deadline_at := some 42, created_at := 0, modified_at := 0 })
      = some { id := 7, scheduler_id := "s1", hash := some "h", data := "d",
               enabled := false, cron_expression := some ".&^%$#",
               deadline_at := some 42, created_at := 0, modified_at := 0 }
    ∧ (some 42 : Option Int) = some 42 :=
  signal_handler_malformed_cron_disables (fun _ _ => none) 100 TaskStatus.completed
    { id := 7, scheduler_id := "s1", hash := some "h", data := "d",
      enabled := true, cron_expression := some ".&^%$#",
      deadline_at := some 42, created_at := 0, modified_at := 0 }
    ".&^%$#" (Or.inl rfl) rfl rfl

/-- C7: on a task whose status is not terminal, or with no associated
Schedule, signal_handler_task returns the Schedule exactly as it was
(byte-for-byte: the result is the very same value). -/
theorem signal_handler_non_terminal_noop (get_next : String → Int → Option Int)
    (now : Int) (status : TaskStatus) (schedule : Option Schedule)
    (h : (status ≠ TaskStatus.completed ∧ status ≠ TaskStatus.failed ∧
          status ≠ TaskStatus.cancelled) ∨ schedule = none) :
    signal_handler_task get_next now status schedule = schedule := by
  rcases h with ⟨h1, h2, _⟩ | h
  · cases schedule with
    | none => rfl
    | some sch => simp [signal_handler_task, h1, h2]
  · subst h; rfl

/-- Concrete instantiation of the non-terminal no-op theorem: a RUNNING
task with a live schedule is untouched. -/
theorem signal_handler_non_terminal_noop_witness :
    signal_handler_task (fun _ t => some (t + 60)) 100 TaskStatus.running
        (some { id := 7, scheduler_id := "s1", hash := some "h", data := "d",
                enabled := true, cron_expression := some "0 0 * * *",
                deadline_at := some 42, created_at := 0, modified_at := 0 })
      = some { id := 7, scheduler_id := "s1", hash := some "h", data := "d",
               enabled := true, cron_expression := some "0 0 * * *",
               deadline_at := some 42, created_at := 0, modified_at := 0 } :=
  signal_handler_non_terminal_noop (fun _ t => some (t + 60)) 100 TaskStatus.running
    (some { id := 7, scheduler_id := "s1", hash := some "h", data := "d",
            enabled := true, cron_expression := some "0 0 * * *",
            deadline_at := some 42, created_at := 0, modified_at := 0 })
    (Or.inl ⟨by decide, by decide, by decide⟩)

/-! ## Admission-policy theorems (C1, C2, C3) -/

/-- C1 counterexample: on a queue with allow_replace=false (and, as in
test_push_replace_not_allowed, updates and priority updates also
disallowed), re-pushing the very same item — identical payload,
identical priority — is not a no-op success: it returns the
replace-not-allowed conflict, exactly as the integration test asserts
(HTTP 409 with that detail). -/
theorem push_identical_resubmit_conflicts :
    qA.allow_replace = false
    ∧ (qA.push itemA).1 = PushResult.conflict msg_replace_not_allowed
    ∧ (qA.push itemA).1 ≠ PushResult.success := by
  refine ⟨rfl, rfl, ?_⟩
  decide

/-- C1 amended: with allow_replace=false, re-pushing an item whose
payload and priority match the live entry leaves the queue state (hence
its live entries and qsize) entirely unchanged; the outcome is the
replace-not-allowed conflict when updates and priority updates are also
disallowed, and a no-op success otherwise. -/
theorem push_identical_resubmit_admission (q : PriorityQueue) (it : PrioritizedItem)
    (old : Entry)
    (hr : q.allow_replace = false)
    (hfind : q.find_entry it.hash = some old)
    (hdata : it.data = old.p_item.data)
    (hprio : it.priority = old.priority) :
    (q.push it).2 = q
    ∧ (q.push it).1 =
        (if q.allow_updates = false ∧ q.allow_priority_updates = false
         then PushResult.conflict msg_replace_not_allowed
         else PushResult.success) := by
  unfold PriorityQueue.push
  rw [hfind]
  cases hu : q.allow_updates <;> cases hp : q.allow_priority_updates <;>
    simp [hr, hdata, hprio]

/-- Concrete instantiation of the amended C1 theorem on a queue that
allows updates: the identical re-push is a no-op success. -/
theorem push_identical_resubmit_admission_witness :
    (((emptyQueue 1000 false true false).push itemA).2.push itemA).2
        = ((emptyQueue 1000 false true false).push itemA).2
    ∧ (((emptyQueue 1000 false true false).push itemA).2.push itemA).1 =
        (if ((emptyQueue 1000 false true false).push itemA).2.allow_updates = false
            ∧ ((emptyQueue 1000 false true false).push itemA).2.allow_priority_updates = false
         then PushResult.conflict msg_replace_not_allowed
         else PushResult.success) :=
  push_identical_resubmit_admission ((emptyQueue 1000 false true false).push itemA).2 itemA
    { priority := 1, sequence := 0, p_item := itemA, removed := false }
    rfl rfl rfl rfl

/-- C2: with replace, updates and priority updates all disallowed,
pushing an item whose content hash matches a live entry is rejected with
one of the three verbatim admission-policy conflict messages, and the
queue state — hence qsize — is unchanged. -/
theorem push_duplicate_all_disallowed_conflict (q : PriorityQueue) (it : PrioritizedItem)
    (old : Entry)
    (hr : q.allow_replace = false) (hu : q.allow_updates = false)
    (hp : q.allow_priority_updates = false)
    (hfind : q.find_entry it.hash = some old) :
    ((q.push it).1 = PushResult.conflict msg_replace_not_allowed
      ∨ (q.push it).1 = PushResult.conflict msg_update_not_allowed
      ∨ (q.push it).1 = PushResult.conflict msg_priority_update_not_allowed)
    ∧ (q.push it).2 = q ∧ (q.push it).2.qsize = q.qsize := by
  unfold PriorityQueue.push
  rw [hfind]
  by_cases hd : it.data = old.p_item.data <;>
    by_cases hpr : it.priority = old.priority <;>
      simp [hr, hu, hp, hd, hpr]

/-- Concrete instantiation of the C2 theorem: the duplicate push of
test_push_replace_not_allowed is rejected and the queue is unchanged. -/
theorem push_duplicate_all_disallowed_conflict_witness :
    ((qA.push itemA).1 = PushResult.conflict msg_replace_not_allowed
      ∨ (qA.push itemA).1 = PushResult.conflict msg_update_not_allowed
      ∨ (qA.push itemA).1 = PushResult.conflict msg_priority_update_not_allowed)
    ∧ (qA.push itemA).2 = qA ∧ (qA.push itemA).2.qsize = qA.qsize :=
  push_duplicate_all_disallowed_conflict qA itemA
    { priority := 1, sequence := 0, p_item := itemA, removed := false }
    rfl rfl rfl rfl

/-- C3 counterexample: a maxsize-1 queue holding a priority-1 item
admits a distinct item of equal priority 1 — push succeeds and qsize
grows to 2 — exactly as test_push_queue_full_high_priority asserts, so
capacity rejection is not unconditional on priority. -/
theorem push_full_priority_one_admitted :
    qFull1.qsize = qFull1.maxsize
    ∧ itemB.hash ≠ itemA.hash
    ∧ (qFull1.push itemB).1 = PushResult.success
    ∧ (qFull1.push itemB).2.qsize = 2 := by
  refine ⟨rfl, ?_, rfl, rfl⟩
  decide

/-- C3 amended: on a queue whose live count has reached maxsize, pushing
an item whose hash matches no live entry is rejected with the capacity
error and the state (hence qsize) is unchanged, provided its priority
value exceeds 1; an item of priority 1 (or lower value) bypasses the
capacity check and is admitted, growing qsize by one. -/
theorem push_full_capacity_policy (q : PriorityQueue) (it : PrioritizedItem)
    (hfind : q.find_entry it.hash = none) (hfull : q.maxsize ≤ q.qsize) :
    (1 < it.priority → (q.push it).1 = PushResult.queueFull ∧ (q.push it).2 = q)
    ∧ (it.priority ≤ 1 → (q.push it).1 = PushResult.success
        ∧ (q.push it).2.qsize = q.qsize + 1) := by
  simp only [PriorityQueue.qsize] at hfull
  constructor
  · intro hgt
    unfold PriorityQueue.push
    rw [hfind]
    simp [PriorityQueue.full, PriorityQueue.qsize, hfull, hgt]
  · intro hle
    have hnot : ¬(1 < it.priority) := not_lt.mpr hle
    unfold PriorityQueue.push
    rw [hfind]
    simp [PriorityQueue.full, PriorityQueue.qsize, hfull, hnot, PriorityQueue.insertEntry]

/-- Concrete instantiation of the amended C3 theorem on the full
maxsize-1 queue: the priority-2 item is rejected with the capacity
error, while a priority-1 item would be admitted. -/
theorem push_full_capacity_policy_witness :
    (1 < itemC.priority → (qFull1.push itemC).1 = PushResult.queueFull
      ∧ (qFull1.push itemC).2 = qFull1)
    ∧ (itemC.priority ≤ 1 → (qFull1.push itemC).1 = PushResult.success
        ∧ (qFull1.push itemC).2.qsize = qFull1.qsize + 1) :=
  push_full_capacity_policy qFull1 itemC (by decide) (by decide)

/-! ## Association-list lemmas -/

theorem lookupKey_eq_none {κ β : Type} [DecidableEq κ] {k : κ} {l : List (κ × β)} :
    lookupKey k l = none ↔ ∀ p ∈ l, p.1 ≠ k := by
  induction l with
  | nil => simp [lookupKey]
  | cons p rest ih =>
    by_cases h : p.1 = k <;> simp [lookupKey, h, ih]

theorem lookupKey_mem {κ β : Type} [DecidableEq κ] {k : κ} {v : β} {l : List (κ × β)}
    (h : lookupKey k l = some v) : (k, v) ∈ l := by
  induction l with
  | nil => simp [lookupKey] at h
  | cons p rest ih =>
    by_cases hp : p.1 = k
    · simp only [lookupKey, hp, if_pos] at h
      obtain ⟨k₁, v₁⟩ := p
      obtain rfl := hp
      obtain rfl : v₁ = v := by injection h
      exact List.mem_cons_self _ _
    · simp only [lookupKey, hp, if_neg, not_false_iff] at h
      exact List.mem_cons_of_mem _ (ih h)

theorem lookupKey_isSome_of_mem {κ β : Type} [DecidableEq κ] {k : κ} {l : List (κ × β)}
    {p : κ × β} (hmem : p ∈ l) (hk : p.1 = k) : (lookupKey k l).isSome = true := by
  induction l with
  | nil => simp at hmem
  | cons x rest ih =>
    rcases List.mem_cons.mp hmem with rfl | hmem2
    · simp [lookupKey, hk]
    · by_cases hx : x.1 = k <;> simp [lookupKey, hx, ih hmem2]

theorem eraseKey_sublist {κ β : Type} [DecidableEq κ] (k : κ) (l : List (κ × β)) :
    (eraseKey k l).Sublist l := by
  induction l with
  | nil => simp [eraseKey]
  | cons p rest ih =>
    by_cases h : p.1 = k
    · simpa [eraseKey, h] using List.sublist_cons_self p rest
    · simpa [eraseKey, h] using List.Sublist.cons₂ p ih

theorem length_eraseKey {κ β : Type} [DecidableEq κ] {k : κ} {l : List (κ × β)}
    (h : ∃ p ∈ l, p.1 = k) : (eraseKey k l).length + 1 = l.length := by
  induction l with
  | nil => simp at h
  | cons p rest ih =>
    by_cases hp : p.1 = k
    · simp [eraseKey, hp]
    · obtain ⟨x, hx, hxk⟩ := h
      rcases List.mem_cons.mp hx with rfl | hx2
      · exact absurd hxk hp
      · simp [eraseKey, hp, ih ⟨x, hx2, hxk⟩]

theorem mem_eraseKey_of_ne {κ β : Type} [DecidableEq κ] {k : κ} {l : List (κ × β)}
    {x : κ × β} (hmem : x ∈ l) (hne : x.1 ≠ k) : x ∈ eraseKey k l := by
  induction l with
  | nil => simp at hmem
  | cons p rest ih =>
    rcases List.mem_cons.mp hmem with rfl | hmem2
    · simp [eraseKey, hne]
    · by_cases hp : p.1 = k
      · simpa [eraseKey, hp] using hmem2
      · simpa [eraseKey, hp] using Or.inr (ih hmem2)

theorem ne_key_of_mem_eraseKey {κ β : Type} [DecidableEq κ] {k : κ} {l : List (κ × β)}
    (hnd : (l.map Prod.fst).Nodup) {x : κ × β} (hmem : x ∈ eraseKey k l) : x.1 ≠ k := by
  induction l with
  | nil => simp [eraseKey] at hmem
  | cons p rest ih =>
    simp only [List.map_cons, List.nodup_cons] at hnd
    by_cases hp : p.1 = k
    · simp only [eraseKey, hp, if_pos] at hmem
      intro hxk
      apply hnd.1
      have hm : x.1 ∈ List.map Prod.fst rest := List.mem_map_of_mem Prod.fst hmem
      rwa [hxk, ← hp] at hm
    · simp only [eraseKey, hp, if_neg, not_false_iff, List.mem_cons] at hmem
      rcases hmem with rfl | hmem2
      · exact hp
      · exact ih hnd.2 hmem2

/-! ## Heap-helper lemmas -/

theorem countLive_append (l : List Entry) (e : Entry) :
    countLive (l ++ [e]) = countLive l + (if e.removed then 0 else 1) := by
  cases h : e.removed <;> simp [countLive, List.filter_append, h]

theorem mem_flagRemoved_of_ne {seq : Nat} {l : List Entry} {e : Entry}
    (hmem : e ∈ l) (hne : e.sequence ≠ seq) : e ∈ flagRemoved seq l := by
  unfold flagRemoved
  refine List.mem_map.mpr ⟨e, hmem, ?_⟩
  simp [hne]

theorem mem_flagRemoved_cases {seq : Nat} {l : List Entry} {x : Entry}
    (hmem : x ∈ flagRemoved seq l) :
    ∃ e ∈ l, (e.sequence = seq ∧ x = { e with removed := true })
      ∨ (e.sequence ≠ seq ∧ x = e) := by
  obtain ⟨e, he, hx⟩ := List.mem_map.mp hmem
  by_cases hseq : e.sequence = seq
  · rw [if_pos hseq] at hx
    exact ⟨e, he, Or.inl ⟨hseq, hx.symm⟩⟩
  · rw [if_neg hseq] at hx
    exact ⟨e, he, Or.inr ⟨hseq, hx.symm⟩⟩

theorem flagRemoved_eq_self {seq : Nat} {l : List Entry}
    (h : ∀ e ∈ l, e.sequence ≠ seq) : flagRemoved seq l = l := by
  induction l with
  | nil => rfl
  | cons x rest ih =>
    have hx : x.sequence ≠ seq := h x (List.mem_cons_self x rest)
    have hr := ih (fun e he => h e (List.mem_cons_of_mem x he))
    simp only [flagRemoved, List.map_cons] at hr ⊢
    rw [if_neg hx, hr]

theorem map_seq_flagRemoved (seq : Nat) (l : List Entry) :
    (flagRemoved seq l).map (fun e => e.sequence) = l.map (fun e => e.sequence) := by
  induction l with
  | nil => rfl
  | cons e rest ih =>
    by_cases h : e.sequence = seq <;> simp [flagRemoved, h] at ih ⊢ <;> exact ih

theorem countLive_flagRemoved {seq : Nat} {l : List Entry} {e₀ : Entry}
    (hmem : e₀ ∈ l) (hlive : e₀.removed = false) (hseq : e₀.sequence = seq)
    (hnd : (l.map (fun e => e.sequence)).Nodup) :
    countLive (flagRemoved seq l) + 1 = countLive l := by
  induction l with
  | nil => simp at hmem
  | cons x rest ih =>
    simp only [List.map_cons, List.nodup_cons] at hnd
    by_cases hx : x.sequence = seq
    · have hrest : flagRemoved seq rest = rest := by
        apply flagRemoved_eq_self
        intro e he hc
        apply hnd.1
        have hm : e.sequence ∈ List.map (fun e => e.sequence) rest :=
          List.mem_map_of_mem (fun e => e.sequence) he
        rwa [hc, ← hx] at hm
      have hxlive : x.removed = false := by
        rcases List.mem_cons.mp hmem with h | h
        · rw [← h]; exact hlive
        · exfalso
          apply hnd.1
          have hm : e₀.sequence ∈ List.map (fun e => e.sequence) rest :=
            List.mem_map_of_mem (fun e => e.sequence) h
          rwa [hseq, ← hx] at hm
      simp only [flagRemoved, List.map_cons] at hrest ⊢
      rw [if_pos hx, hrest]
      simp [countLive, List.filter_cons, hxlive]
    · have hmem2 : e₀ ∈ rest := by
        rcases List.mem_cons.mp hmem with h | h
        · exfalso; rw [h] at hseq; exact hx hseq
        · exact h
      have := ih hmem2 hnd.2
      simp only [flagRemoved, List.map_cons] at this ⊢
      rw [if_neg hx]
      cases hxr : x.removed <;>
        simp [countLive, List.filter_cons, hxr] at this ⊢ <;> omega

theorem eraseSeq_sublist (seq : Nat) (l : List Entry) : (eraseSeq seq l).Sublist l := by
  induction l with
  | nil => simp [eraseSeq]
  | cons e rest ih =>
    by_cases h : e.sequence = seq
    · simpa [eraseSeq, h] using List.sublist_cons_self e rest
    · simpa [eraseSeq, h] using List.Sublist.cons₂ e ih

theorem length_eraseSeq {seq : Nat} {l : List Entry} (h : ∃ e ∈ l, e.sequence = seq) :
    (eraseSeq seq l).length + 1 = l.length := by
  induction l with
  | nil => simp at h
  | cons e rest ih =>
    by_cases he : e.sequence = seq
    · simp [eraseSeq, he]
    · obtain ⟨x, hx, hxs⟩ := h
      rcases List.mem_cons.mp hx with rfl | hx2
      · exact absurd hxs he
      · simp [eraseSeq, he, ih ⟨x, hx2, hxs⟩]

theorem mem_eraseSeq_of_ne {seq : Nat} {l : List Entry} {e : Entry}
    (hmem : e ∈ l) (hne : e.sequence ≠ seq) : e ∈ eraseSeq seq l := by
  induction l with
  | nil => simp at hmem
  | cons x rest ih =>
    rcases List.mem_cons.mp hmem with rfl | hmem2
    · simp [eraseSeq, hne]
    · by_cases hx : x.sequence = seq
      · simpa [eraseSeq, hx] using hmem2
      · simpa [eraseSeq, hx] using Or.inr (ih hmem2)

theorem ne_seq_of_mem_eraseSeq {seq : Nat} {l : List Entry}
    (hnd : (l.map (fun e => e.sequence)).Nodup) {x : Entry}
    (hmem : x ∈ eraseSeq seq l) : x.sequence ≠ seq := by
  induction l with
  | nil => simp [eraseSeq] at hmem
  | cons e rest ih =>
    simp only [List.map_cons, List.nodup_cons] at hnd
    by_cases he : e.sequence = seq
    · simp only [eraseSeq, he, if_pos] at hmem
      intro hxk
      apply hnd.1
      have hm : x.sequence ∈ List.map (fun e => e.sequence) rest :=
        List.mem_map_of_mem (fun e => e.sequence) hmem
      rwa [hxk, ← he] at hm
    · simp only [eraseSeq, he, if_neg, not_false_iff, List.mem_cons] at hmem
      rcases hmem with rfl | hmem2
      · exact he
      · exact ih hnd.2 hmem2

theorem countLive_eraseSeq {seq : Nat} {l : List Entry} {m : Entry}
    (hmem : m ∈ l) (hseq : m.sequence = seq)
    (hnd : (l.map (fun e => e.sequence)).Nodup) :
    countLive (eraseSeq seq l) + (if m.removed then 0 else 1) = countLive l := by
  induction l with
  | nil => simp at hmem
  | cons x rest ih =>
    simp only [List.map_cons, List.nodup_cons] at hnd
    rcases List.mem_cons.mp hmem with rfl | hmem2
    · cases hx : m.removed <;> simp [eraseSeq, hseq, countLive, List.filter_cons, hx]
    · have hxne : x.sequence ≠ seq := by
        intro hc
        apply hnd.1
        have hm : m.sequence ∈ List.map (fun e => e.sequence) rest :=
          List.mem_map_of_mem (fun e => e.sequence) hmem2
        rwa [hseq, ← hc] at hm
      have := ih hmem2 hnd.2
      cases hx : x.removed <;> cases hmr : m.removed <;>
        simp [eraseSeq, hxne, countLive, List.filter_cons, hx, hmr] at this ⊢ <;> omega

theorem minEntry_mem {l : List Entry} {m : Entry} (h : minEntry l = some m) : m ∈ l := by
  induction l generalizing m with
  | nil => simp [minEntry] at h
  | cons e rest ih =>
    simp only [minEntry] at h
    cases hrest : minEntry rest with
    | none => rw [hrest] at h; injection h with h; exact h ▸ List.mem_cons_self e rest
    | some m₂ =>
      rw [hrest] at h
      by_cases hle : entryLE e m₂
      · simp only [hle, if_pos] at h
        injection h with h
        exact h ▸ List.mem_cons_self e rest
      · simp only [hle, if_neg, not_false_iff] at h
        injection h with h
        exact List.mem_cons_of_mem e (h ▸ ih hrest)

theorem minEntry_eq_none {l : List Entry} : minEntry l = none ↔ l = [] := by
  cases l with
  | nil => simp [minEntry]
  | cons e rest =>
    simp only [minEntry]
    cases minEntry rest with
    | none => simp
    | some m => by_cases h : entryLE e m <;> simp [h]

/-! ## Invariant consequences -/

theorem entry_seq_inj {l : List Entry} (hnd : (l.map (fun e => e.sequence)).Nodup)
    {a b : Entry} (ha : a ∈ l) (hb : b ∈ l) (hab : a.sequence = b.sequence) : a = b :=
  List.inj_on_of_nodup_map hnd ha hb hab

/-- Under the invariant there is at most one live entry per content hash. -/
theorem live_hash_inj {q : PriorityQueue} (hinv : QueueInv q)
    {a b : Entry} (ha : a ∈ q.heap) (hal : a.removed = false)
    (hb : b ∈ q.heap) (hbl : b.removed = false)
    (hh : a.p_item.hash = b.p_item.hash) : a = b := by
  obtain ⟨p, hp, hpk⟩ := hinv.live_has_binding a ha hal
  have hpa := hinv.binding_points a ha hal p hp hpk
  have hpb := hinv.binding_points b hb hbl p hp (by rw [hpk, hh])
  exact entry_seq_inj hinv.seq_nodup ha hb (by rw [← hpa, ← hpb])

/-- Under the invariant, a successful hash lookup yields the live entry
for that hash, with its finder binding. -/
theorem find_entry_some {q : PriorityQueue} (hinv : QueueInv q) {h : String} {old : Entry}
    (hfe : q.find_entry h = some old) :
    old ∈ q.heap ∧ old.removed = false ∧ old.p_item.hash = h
      ∧ lookupKey h q.entry_finder = some old.sequence := by
  unfold PriorityQueue.find_entry at hfe
  cases hlk : lookupKey h q.entry_finder with
  | none => rw [hlk] at hfe; simp at hfe
  | some seq =>
    rw [hlk] at hfe
    have hmem := List.mem_of_find?_eq_some hfe
    have hseq : old.sequence = seq := by
      have := List.find?_some hfe
      simpa using this
    obtain ⟨e, he, helive, heseq, hehash⟩ := hinv.binding_live (h, seq) (lookupKey_mem hlk)
    have hoe : old = e := entry_seq_inj hinv.seq_nodup hmem he (by rw [hseq, heseq])
    subst hoe
    exact ⟨hmem, helive, hehash, by rw [hseq]⟩

/-- Under the invariant, a failed hash lookup means the hash is nowhere
in the entry finder. -/
theorem find_entry_none {q : PriorityQueue} (hinv : QueueInv q) {h : String}
    (hfe : q.find_entry h = none) : ∀ p ∈ q.entry_finder, p.1 ≠ h := by
  unfold PriorityQueue.find_entry at hfe
  cases hlk : lookupKey h q.entry_finder with
  | none => exact lookupKey_eq_none.mp hlk
  | some seq =>
    rw [hlk] at hfe
    obtain ⟨e, he, _, heseq, _⟩ := hinv.binding_live (h, seq) (lookupKey_mem hlk)
    rw [List.find?_eq_none] at hfe
    have := hfe e he
    simp [heseq] at this

/-! ## Invariant preservation -/

theorem inv_insertEntry {q : PriorityQueue} (hinv : QueueInv q) {it : PrioritizedItem}
    (hnew : ∀ p ∈ q.entry_finder, p.1 ≠ it.hash) : QueueInv (q.insertEntry it) := by
  refine ⟨?_, ?_, ?_, ?_, ?_, ?_, ?_⟩
  · simp [PriorityQueue.insertEntry, countLive_append, hinv.size_eq]
  · intro e he hel
    simp only [PriorityQueue.insertEntry, List.mem_append, List.mem_singleton] at he
    rcases he with he | rfl
    · obtain ⟨p, hp, hpk⟩ := hinv.live_has_binding e he hel
      exact ⟨p, List.mem_append.mpr (Or.inl hp), hpk⟩
    · exact ⟨(it.hash, q.counter),
        List.mem_append.mpr (Or.inr (List.mem_singleton.mpr rfl)), rfl⟩
  · intro p hp
    simp only [PriorityQueue.insertEntry, List.mem_append, List.mem_singleton] at hp
    rcases hp with hp | rfl
    · obtain ⟨e, he, hel, hes, heh⟩ := hinv.binding_live p hp
      exact ⟨e, List.mem_append.mpr (Or.inl he), hel, hes, heh⟩
    · exact ⟨{ priority := it.priority, sequence := q.counter, p_item := it, removed := false },
        List.mem_append.mpr (Or.inr (List.mem_singleton.mpr rfl)), rfl, rfl, rfl⟩
  · intro e he hel p hp hpk
    simp only [PriorityQueue.insertEntry, List.mem_append, List.mem_singleton] at he hp
    rcases he with he | rfl <;> rcases hp with hp | rfl
    · exact hinv.binding_points e he hel p hp hpk
    · exfalso
      obtain ⟨p', hp', hpk'⟩ := hinv.live_has_binding e he hel
      exact hnew p' hp' (by rw [hpk', ← hpk])
    · exact absurd hpk (hnew p hp)
    · rfl
  · simp only [PriorityQueue.insertEntry, List.map_append, List.map_cons, List.map_nil]
    rw [List.nodup_append]
    refine ⟨hinv.seq_nodup, List.nodup_singleton _, ?_⟩
    rw [List.disjoint_singleton]
    intro hc
    obtain ⟨e, he, hes⟩ := List.mem_map.mp hc
    exact absurd hes (Nat.ne_of_lt (hinv.seq_lt e he))
  · simp only [PriorityQueue.insertEntry, List.map_append, List.map_cons, List.map_nil]
    rw [List.nodup_append]
    refine ⟨hinv.keys_nodup, List.nodup_singleton _, ?_⟩
    rw [List.disjoint_singleton]
    intro hc
    obtain ⟨p, hp, hpk⟩ := List.mem_map.mp hc
    exact hnew p hp hpk
  · intro e he
    simp only [PriorityQueue.insertEntry, List.mem_append, List.mem_singleton] at he
    rcases he with he | rfl
    · exact Nat.lt_succ_of_lt (hinv.seq_lt e he)
    · exact Nat.lt_succ_self _

theorem remove_eq_some {q : PriorityQueue} {h : String} {seq : Nat}
    (hlk : lookupKey h q.entry_finder = some seq) :
    q.remove h = { q with heap := flagRemoved seq q.heap,
                          entry_finder := eraseKey h q.entry_finder } := by
  unfold PriorityQueue.remove
  rw [hlk]

theorem remove_eq_none {q : PriorityQueue} {h : String}
    (hlk : lookupKey h q.entry_finder = none) : q.remove h = q := by
  unfold PriorityQueue.remove
  rw [hlk]

theorem inv_remove {q : PriorityQueue} (hinv : QueueInv q) (h : String) :
    QueueInv (q.remove h)
    ∧ (∀ p ∈ (q.remove h).entry_finder, p.1 ≠ h)
    ∧ (q.remove h).counter = q.counter := by
  cases hlk : lookupKey h q.entry_finder with
  | none =>
    rw [remove_eq_none hlk]
    exact ⟨hinv, lookupKey_eq_none.mp hlk, rfl⟩
  | some seq =>
    rw [remove_eq_some hlk]
    obtain ⟨e₀, he₀, he₀l, he₀s0, he₀h0⟩ := hinv.binding_live (h, seq) (lookupKey_mem hlk)
    have he₀s : e₀.sequence = seq := he₀s0
    have he₀h : e₀.p_item.hash = h := he₀h0
    refine ⟨⟨?_, ?_, ?_, ?_, ?_, ?_, ?_⟩, ?_, rfl⟩
    · show (eraseKey h q.entry_finder).length = countLive (flagRemoved seq q.heap)
      have h1 := length_eraseKey (k := h) ⟨(h, seq), lookupKey_mem hlk, rfl⟩
      have h2 := countLive_flagRemoved he₀ he₀l he₀s hinv.seq_nodup
      have h3 := hinv.size_eq
      omega
    · intro x hx hxl
      obtain ⟨e, he, hcase⟩ := mem_flagRemoved_cases hx
      rcases hcase with ⟨_, hxe⟩ | ⟨hne, hxe⟩
      · subst hxe; simp at hxl
      · subst hxe
        obtain ⟨p, hp, hpk⟩ := hinv.live_has_binding x he hxl
        have hhne : x.p_item.hash ≠ h := by
          intro hc
          apply hne
          have hee : x = e₀ := live_hash_inj hinv he hxl he₀ he₀l (by rw [hc, he₀h])
          rw [hee, he₀s]
        exact ⟨p, mem_eraseKey_of_ne hp (by rw [hpk]; exact hhne), hpk⟩
    · intro p hp
      have hpmem := (eraseKey_sublist h q.entry_finder).subset hp
      have hpne := ne_key_of_mem_eraseKey hinv.keys_nodup hp
      obtain ⟨e, he, hel, hes, heh⟩ := hinv.binding_live p hpmem
      have hene : e.sequence ≠ seq := by
        intro hc
        have hee : e = e₀ := entry_seq_inj hinv.seq_nodup he he₀ (by rw [hc, he₀s])
        apply hpne
        rw [← heh, hee, he₀h]
      exact ⟨e, mem_flagRemoved_of_ne he hene, hel, hes, heh⟩
    · intro x hx hxl p hp hpk
      obtain ⟨e, he, hcase⟩ := mem_flagRemoved_cases hx
      rcases hcase with ⟨_, hxe⟩ | ⟨_, hxe⟩
      · subst hxe; simp at hxl
      · subst hxe
        exact hinv.binding_points x he hxl p
          ((eraseKey_sublist h q.entry_finder).subset hp) hpk
    · show ((flagRemoved seq q.heap).map (fun e => e.sequence)).Nodup
      rw [map_seq_flagRemoved]
      exact hinv.seq_nodup
    · exact List.Nodup.sublist ((eraseKey_sublist h q.entry_finder).map Prod.fst)
        hinv.keys_nodup
    · intro x hx
      obtain ⟨e, he, hcase⟩ := mem_flagRemoved_cases hx
      rcases hcase with ⟨_, hxe⟩ | ⟨_, hxe⟩
      · subst hxe; exact hinv.seq_lt e he
      · subst hxe; exact hinv.seq_lt x he
    · intro p hp
      exact ne_key_of_mem_eraseKey hinv.keys_nodup hp

theorem inv_push {q : PriorityQueue} (hinv : QueueInv q) (it : PrioritizedItem) :
    QueueInv (q.push it).2 := by
  unfold PriorityQueue.push
  cases hfe : q.find_entry it.hash with
  | none =>
    have hnew := find_entry_none hinv hfe
    by_cases hc : (q.full && decide (1 < it.priority)) = true <;>
      simp only [hc, Bool.false_eq_true, if_true, if_false] <;>
        first
        | exact hinv
        | exact inv_insertEntry hinv hnew
  | some old =>
    obtain ⟨hinv2, hnok, _⟩ := inv_remove hinv it.hash
    have hri := inv_insertEntry hinv2 hnok
    cases hd : it.data == old.p_item.data <;>
      cases hp : it.priority == old.priority <;>
        cases hr : q.allow_replace <;>
          cases hu : q.allow_updates <;>
            cases hpu : q.allow_priority_updates <;>
              simp [hd, hp, hr, hu, hpu] <;>
                first
                | exact hinv
                | exact hri

theorem popGo_succ_none {n : Nat} {q : PriorityQueue} (hm : minEntry q.heap = none) :
    popGo (n + 1) q = (none, q) := by
  simp [popGo, hm]

theorem popGo_succ_removed {n : Nat} {q : PriorityQueue} {m : Entry}
    (hm : minEntry q.heap = some m) (hr : m.removed = true) :
    popGo (n + 1) q = popGo n { q with heap := eraseSeq m.sequence q.heap } := by
  simp [popGo, hm, hr]

theorem popGo_succ_live {n : Nat} {q : PriorityQueue} {m : Entry}
    (hm : minEntry q.heap = some m) (hr : m.removed = false) :
    popGo (n + 1) q =
      (some m.p_item,
        { q with heap := eraseSeq m.sequence q.heap,
                 entry_finder := eraseKey m.p_item.hash q.entry_finder }) := by
  simp [popGo, hm, hr]

theorem inv_popGo (fuel : Nat) : ∀ (q : PriorityQueue), QueueInv q → QueueInv (popGo fuel q).2 := by
  induction fuel with
  | zero => intro q hinv; exact hinv
  | succ n ih =>
    intro q hinv
    cases hm : minEntry q.heap with
    | none => rw [popGo_succ_none hm]; exact hinv
    | some m =>
      have hmem := minEntry_mem hm
      cases hrem : m.removed with
      | true =>
        rw [popGo_succ_removed hm hrem]
        apply ih
        refine ⟨?_, ?_, ?_, ?_, ?_, ?_, ?_⟩
        · show q.entry_finder.length = countLive (eraseSeq m.sequence q.heap)
          have h2 := countLive_eraseSeq hmem rfl hinv.seq_nodup
          simp [hrem] at h2
          have h3 := hinv.size_eq
          omega
        · intro x hx hxl
          exact hinv.live_has_binding x ((eraseSeq_sublist _ _).subset hx) hxl
        · intro p hp
          obtain ⟨e, he, hel, hes, heh⟩ := hinv.binding_live p hp
          have hene : e.sequence ≠ m.sequence := by
            intro hc
            have hee : e = m := entry_seq_inj hinv.seq_nodup he hmem hc
            rw [hee, hrem] at hel
            exact Bool.noConfusion hel
          exact ⟨e, mem_eraseSeq_of_ne he hene, hel, hes, heh⟩
        · intro x hx hxl p hp hpk
          exact hinv.binding_points x ((eraseSeq_sublist _ _).subset hx) hxl p hp hpk
        · exact List.Nodup.sublist
            ((eraseSeq_sublist _ _).map (fun e => e.sequence)) hinv.seq_nodup
        · exact hinv.keys_nodup
        · intro x hx
          exact hinv.seq_lt x ((eraseSeq_sublist _ _).subset hx)
      | false =>
        rw [popGo_succ_live hm hrem]
        refine ⟨?_, ?_, ?_, ?_, ?_, ?_, ?_⟩
        · show (eraseKey m.p_item.hash q.entry_finder).length
            = countLive (eraseSeq m.sequence q.heap)
          obtain ⟨p₀, hp₀, hp₀k⟩ := hinv.live_has_binding m hmem hrem
          have h1 := length_eraseKey (k := m.p_item.hash) ⟨p₀, hp₀, hp₀k⟩
          have h2 := countLive_eraseSeq hmem rfl hinv.seq_nodup
          simp [hrem] at h2
          have h3 := hinv.size_eq
          omega
        · intro x hx hxl
          have hxh := (eraseSeq_sublist _ _).subset hx
          have hxs := ne_seq_of_mem_eraseSeq hinv.seq_nodup hx
          obtain ⟨p, hp, hpk⟩ := hinv.live_has_binding x hxh hxl
          have hne : x.p_item.hash ≠ m.p_item.hash := by
            intro hc
            have hee : x = m := live_hash_inj hinv hxh hxl hmem hrem hc
            exact hxs (by rw [hee])
          exact ⟨p, mem_eraseKey_of_ne hp (by rw [hpk]; exact hne), hpk⟩
        · intro p hp
          have hpmem := (eraseKey_sublist _ _).subset hp
          have hpne := ne_key_of_mem_eraseKey hinv.keys_nodup hp
          obtain ⟨e, he, hel, hes, heh⟩ := hinv.binding_live p hpmem
          have hene : e.sequence ≠ m.sequence := by
            intro hc
            have hee : e = m := entry_seq_inj hinv.seq_nodup he hmem hc
            apply hpne
            rw [← heh, hee]
          exact ⟨e, mem_eraseSeq_of_ne he hene, hel, hes, heh⟩
        · intro x hx hxl p hp hpk
          exact hinv.binding_points x ((eraseSeq_sublist _ _).subset hx) hxl p
            ((eraseKey_sublist _ _).subset hp) hpk
        · exact List.Nodup.sublist
            ((eraseSeq_sublist _ _).map (fun e => e.sequence)) hinv.seq_nodup
        · exact List.Nodup.sublist
            ((eraseKey_sublist _ _).map Prod.fst) hinv.keys_nodup
        · intro x hx
          exact hinv.seq_lt x ((eraseSeq_sublist _ _).subset hx)

theorem inv_pop {q : PriorityQueue} (hinv : QueueInv q) : QueueInv q.pop.2 :=
  inv_popGo q.heap.length q hinv

theorem inv_emptyQueue (maxsize : Nat) (ar au apu : Bool) :
    QueueInv (emptyQueue maxsize ar au apu) := by
  refine ⟨?_, ?_, ?_, ?_, ?_, ?_, ?_⟩ <;> simp [emptyQueue, countLive]

theorem reachable_inv {q : PriorityQueue} (h : Reachable q) : QueueInv q := by
  induction h with
  | init maxsize ar au apu => exact inv_emptyQueue maxsize ar au apu
  | push q it _ ih => exact inv_push ih it
  | pop q _ ih => exact inv_pop ih

theorem popGo_heap_sublist (fuel : Nat) :
    ∀ q : PriorityQueue, (popGo fuel q).2.heap.Sublist q.heap := by
  induction fuel with
  | zero => intro q; exact List.Sublist.refl _
  | succ n ih =>
    intro q
    cases hm : minEntry q.heap with
    | none => rw [popGo_succ_none hm]
    | some m =>
      cases hrem : m.removed with
      | true =>
        rw [popGo_succ_removed hm hrem]
        exact (ih _).trans (eraseSeq_sublist _ _)
      | false =>
        rw [popGo_succ_live hm hrem]
        exact eraseSeq_sublist _ _

theorem popGo_none_heap_nil (fuel : Nat) : ∀ q : PriorityQueue, q.heap.length ≤ fuel →
    (popGo fuel q).1 = none → (popGo fuel q).2.heap = [] := by
  induction fuel with
  | zero =>
    intro q hlen _
    have hq : q.heap = [] := List.eq_nil_of_length_eq_zero (Nat.le_zero.mp hlen)
    simpa [popGo] using hq
  | succ n ih =>
    intro q hlen hnone
    cases hm : minEntry q.heap with
    | none =>
      rw [popGo_succ_none hm]
      exact minEntry_eq_none.mp hm
    | some m =>
      cases hrem : m.removed with
      | true =>
        rw [popGo_succ_removed hm hrem] at hnone ⊢
        refine ih _ ?_ hnone
        show (eraseSeq m.sequence q.heap).length ≤ n
        have := length_eraseSeq ⟨m, minEntry_mem hm, rfl⟩
        omega
      | false =>
        rw [popGo_succ_live hm hrem] at hnone
        simp at hnone

theorem popGo_none_all_removed (fuel : Nat) : ∀ q : PriorityQueue,
    (q.heap.map (fun e => e.sequence)).Nodup → q.heap.length ≤ fuel →
    (popGo fuel q).1 = none → ∀ e ∈ q.heap, e.removed = true := by
  induction fuel with
  | zero =>
    intro q _ hlen _ e he
    have hq : q.heap = [] := List.eq_nil_of_length_eq_zero (Nat.le_zero.mp hlen)
    rw [hq] at he
    simp at he
  | succ n ih =>
    intro q hnd hlen hnone e he
    cases hm : minEntry q.heap with
    | none =>
      rw [minEntry_eq_none.mp hm] at he
      simp at he
    | some m =>
      have hmem := minEntry_mem hm
      cases hrem : m.removed with
      | true =>
        rw [popGo_succ_removed hm hrem] at hnone
        by_cases hes : e.sequence = m.sequence
        · have hee : e = m := entry_seq_inj hnd he hmem hes
          rw [hee]; exact hrem
        · refine ih { q with heap := eraseSeq m.sequence q.heap } ?_ ?_ hnone e
            (mem_eraseSeq_of_ne he hes)
          · exact List.Nodup.sublist
              ((eraseSeq_sublist _ _).map (fun e => e.sequence)) hnd
          · show (eraseSeq m.sequence q.heap).length ≤ n
            have := length_eraseSeq ⟨m, hmem, rfl⟩
            omega
      | false =>
        rw [popGo_succ_live hm hrem] at hnone
        simp at hnone

theorem popGo_some_len (fuel : Nat) : ∀ (q : PriorityQueue) (it : PrioritizedItem),
    (popGo fuel q).1 = some it → (popGo fuel q).2.heap.length < q.heap.length := by
  induction fuel with
  | zero => intro q it h; simp [popGo] at h
  | succ n ih =>
    intro q it h
    cases hm : minEntry q.heap with
    | none => rw [popGo_succ_none hm] at h; simp at h
    | some m =>
      have hmem := minEntry_mem hm
      have hlen := length_eraseSeq ⟨m, hmem, rfl⟩
      cases hrem : m.removed with
      | true =>
        rw [popGo_succ_removed hm hrem] at h ⊢
        have hih := ih _ it h
        dsimp only at hih
        omega
      | false =>
        rw [popGo_succ_live hm hrem]
        dsimp only
        omega

theorem popGo_some_spec (fuel : Nat) : ∀ (q : PriorityQueue) (it : PrioritizedItem),
    (q.heap.map (fun e => e.sequence)).Nodup →
    (popGo fuel q).1 = some it →
    ∃ m ∈ q.heap, m.removed = false ∧ m.p_item = it
      ∧ ∀ e ∈ q.heap, e.removed = false → e ≠ m → e ∈ (popGo fuel q).2.heap := by
  induction fuel with
  | zero => intro q it _ h; simp [popGo] at h
  | succ n ih =>
    intro q it hnd h
    cases hm : minEntry q.heap with
    | none => rw [popGo_succ_none hm] at h; simp at h
    | some m₀ =>
      have hmem := minEntry_mem hm
      cases hrem : m₀.removed with
      | true =>
        rw [popGo_succ_removed hm hrem] at h ⊢
        have hnd2 : (((eraseSeq m₀.sequence q.heap)).map (fun e => e.sequence)).Nodup :=
          List.Nodup.sublist ((eraseSeq_sublist _ _).map (fun e => e.sequence)) hnd
        obtain ⟨m, hm2, hml, hmp, hsurv⟩ := ih _ it hnd2 h
        refine ⟨m, (eraseSeq_sublist _ _).subset hm2, hml, hmp, ?_⟩
        intro e he hel hne
        refine hsurv e ?_ hel hne
        have hes : e.sequence ≠ m₀.sequence := by
          intro hc
          have hee : e = m₀ := entry_seq_inj hnd he hmem hc
          rw [hee, hrem] at hel
          exact Bool.noConfusion hel
        exact mem_eraseSeq_of_ne he hes
      | false =>
        rw [popGo_succ_live hm hrem] at h ⊢
        dsimp only at h
        have hit : m₀.p_item = it := Option.some.inj h
        refine ⟨m₀, hmem, hrem, hit, ?_⟩
        intro e he hel hne
        dsimp only
        refine mem_eraseSeq_of_ne he ?_
        intro hc
        exact hne (entry_seq_inj hnd he hmem hc)

/-- C4: on every queue state reachable by any sequence of push and pop
operations (replace and priority-update cycles being duplicate-hash
pushes), qsize() equals the number of live, non flagged-removed heap
slots: flagged-removed slots are never counted. -/
theorem qsize_eq_live_entries (q : PriorityQueue) (h : Reachable q) :
    q.qsize = countLive q.heap :=
  (reachable_inv h).size_eq

/-- Concrete instantiation of the C4 theorem after one admission and one
replace cycle of the same item (the scenario of
test_update_priority_higher): the flagged-removed slot left by the
replace is not counted and qsize is still 1. -/
theorem qsize_eq_live_entries_witness :
    qU2.qsize = countLive qU2.heap ∧ qU2.qsize = 1 ∧ qU2.heap.length = 2 :=
  ⟨qsize_eq_live_entries qU2
      (Reachable.push qU itemAUpd (Reachable.push (emptyQueue 1000 false true true) itemA
        (Reachable.init 1000 false true true))),
    by decide, by decide⟩

/-! ## Scheduler drain lemmas and disable (C5) -/

theorem lookupKey_setTaskStatus (id id' : Nat) (st : TaskStatus) (l : List (Nat × TaskStatus)) :
    lookupKey id (setTaskStatus id' st l)
      = (lookupKey id l).map (fun v => if id = id' then st else v) := by
  induction l with
  | nil => rfl
  | cons p rest ih =>
    simp only [setTaskStatus, List.map_cons] at ih ⊢
    by_cases hp' : p.1 = id'
    · by_cases hp : p.1 = id
      · have hii : id = id' := by rw [← hp, hp']
        simp [lookupKey, hp', hp, hii]
      · have hii : ¬(id' = id) := by
          intro hc
          exact hp (by rw [hp', hc])
        simp [lookupKey, hp', hp, hii, ih]
    · by_cases hp : p.1 = id
      · have hii : ¬(id = id') := by rw [← hp]; exact hp'
        simp [lookupKey, hp', hp, hii]
      · simp [lookupKey, hp', hp, ih]

theorem drainGo_succ_none {n : Nat} {s : SchedulerState} {q : PriorityQueue}
    (h : s.queue.pop = (none, q)) :
    drainGo (n + 1) s = { s with queue := q } := by
  simp [drainGo, h]

theorem drainGo_succ_some {n : Nat} {s : SchedulerState} {it : PrioritizedItem}
    {q : PriorityQueue} (h : s.queue.pop = (some it, q)) :
    drainGo (n + 1) s =
      drainGo n
        { s with queue := q, tasks := setTaskStatus it.id TaskStatus.cancelled s.tasks } := by
  simp [drainGo, h]

theorem drainGo_enabled (fuel : Nat) :
    ∀ s : SchedulerState, (drainGo fuel s).enabled = s.enabled := by
  induction fuel with
  | zero => intro s; rfl
  | succ n ih =>
    intro s
    cases hp : s.queue.pop with
    | mk res q' =>
      cases res with
      | none => rw [drainGo_succ_none hp]
      | some it => rw [drainGo_succ_some hp, ih]

theorem drainGo_keeps_cancelled (fuel : Nat) : ∀ (s : SchedulerState) (id : Nat),
    lookupKey id s.tasks = some TaskStatus.cancelled →
    lookupKey id (drainGo fuel s).tasks = some TaskStatus.cancelled := by
  induction fuel with
  | zero => intro s id h; exact h
  | succ n ih =>
    intro s id h
    cases hp : s.queue.pop with
    | mk res q' =>
      cases res with
      | none => rw [drainGo_succ_none hp]; exact h
      | some it =>
        rw [drainGo_succ_some hp]
        refine ih _ id ?_
        show lookupKey id (setTaskStatus it.id TaskStatus.cancelled s.tasks)
          = some TaskStatus.cancelled
        rw [lookupKey_setTaskStatus, h]
        by_cases hii : id = it.id <;> simp [hii]

theorem drainGo_qsize (fuel : Nat) : ∀ s : SchedulerState,
    QueueInv s.queue → s.queue.heap.length ≤ fuel →
    (drainGo fuel s).queue.qsize = 0 := by
  induction fuel with
  | zero =>
    intro s hinv hlen
    have hq : s.queue.heap = [] := List.eq_nil_of_length_eq_zero (Nat.le_zero.mp hlen)
    show s.queue.entry_finder.length = 0
    rw [hinv.size_eq, hq]
    rfl
  | succ n ih =>
    intro s hinv hlen
    cases hp : s.queue.pop with
    | mk res q' =>
      cases res with
      | none =>
        rw [drainGo_succ_none hp]
        have hnil : q'.heap = [] := by
          have h1 := popGo_none_heap_nil s.queue.heap.length s.queue (Nat.le_refl _)
          rw [show popGo s.queue.heap.length s.queue = s.queue.pop from rfl, hp] at h1
          exact h1 rfl
        have hinv2 : QueueInv q' := by
          have := inv_pop hinv
          rwa [hp] at this
        show q'.entry_finder.length = 0
        rw [hinv2.size_eq, hnil]
        rfl
      | some it =>
        rw [drainGo_succ_some hp]
        have hinv2 : QueueInv q' := by
          have := inv_pop hinv
          rwa [hp] at this
        refine ih _ hinv2 ?_
        show q'.heap.length ≤ n
        have hlt := popGo_some_len s.queue.heap.length s.queue it
        rw [show popGo s.queue.heap.length s.queue = s.queue.pop from rfl, hp] at hlt
        have := hlt rfl
        simp only at this
        omega

theorem drainGo_cancels (fuel : Nat) : ∀ s : SchedulerState,
    QueueInv s.queue → s.queue.heap.length ≤ fuel →
    (∀ e ∈ s.queue.heap, e.removed = false → (lookupKey e.p_item.id s.tasks).isSome = true) →
    ∀ e ∈ s.queue.heap, e.removed = false →
    lookupKey e.p_item.id (drainGo fuel s).tasks = some TaskStatus.cancelled := by
  induction fuel with
  | zero =>
    intro s _ hlen _ e he _
    have hq : s.queue.heap = [] := List.eq_nil_of_length_eq_zero (Nat.le_zero.mp hlen)
    rw [hq] at he
    simp at he
  | succ n ih =>
    intro s hinv hlen hkeys e he hel
    cases hp : s.queue.pop with
    | mk res q' =>
      cases res with
      | none =>
        exfalso
        have hall := popGo_none_all_removed s.queue.heap.length s.queue hinv.seq_nodup
          (Nat.le_refl _)
        rw [show popGo s.queue.heap.length s.queue = s.queue.pop from rfl, hp] at hall
        have := hall rfl e he
        rw [hel] at this
        exact Bool.noConfusion this
      | some it =>
        have hspec := popGo_some_spec s.queue.heap.length s.queue it hinv.seq_nodup
        rw [show popGo s.queue.heap.length s.queue = s.queue.pop from rfl, hp] at hspec
        obtain ⟨m, hmem, hml, hmp, hsurv⟩ := hspec rfl
        rw [drainGo_succ_some hp]
        have hinv2 : QueueInv q' := by
          have := inv_pop hinv
          rwa [hp] at this
        have hsub : q'.heap.Sublist s.queue.heap := by
          have := popGo_heap_sublist s.queue.heap.length s.queue
          rwa [show popGo s.queue.heap.length s.queue = s.queue.pop from rfl, hp] at this
        by_cases hem : e = m
        · -- e is the popped item: its task is set CANCELLED now and stays so
          refine drainGo_keeps_cancelled n _ _ ?_
          show lookupKey e.p_item.id (setTaskStatus it.id TaskStatus.cancelled s.tasks)
            = some TaskStatus.cancelled
          rw [lookupKey_setTaskStatus]
          have hid : e.p_item.id = it.id := by rw [hem, hmp]
          obtain ⟨v, hv⟩ := Option.isSome_iff_exists.mp (hkeys e he hel)
          rw [hv]
          simp [hid]
        · -- e survives the pop; recurse
          have hlt := popGo_some_len s.queue.heap.length s.queue it
          rw [show popGo s.queue.heap.length s.queue = s.queue.pop from rfl, hp] at hlt
          have hlen2 := hlt rfl
          simp only at hlen2
          refine ih _ hinv2 (show q'.heap.length ≤ n by omega) ?_ e
            (hsurv e he hel hem) hel
          intro x hx hxl
          have hx0 := hsub.subset hx
          have := hkeys x hx0 hxl
          show (lookupKey x.p_item.id (setTaskStatus it.id TaskStatus.cancelled s.tasks)).isSome
            = true
          rw [lookupKey_setTaskStatus]
          obtain ⟨v, hv⟩ := Option.isSome_iff_exists.mp this
          rw [hv]
          rfl

/-- C5: disabling a scheduler whose live queue items all have task
records empties the queue (qsize 0), transitions every live item's Task
to CANCELLED in storage, reports disabled, rejects every subsequent push
with NotAllowedError while leaving the state untouched, and stays so
until enable() sets the flag back. -/
theorem disable_drains_and_rejects (s : SchedulerState)
    (hinv : QueueInv s.queue)
    (hkeys : ∀ e ∈ s.queue.heap, e.removed = false →
      (lookupKey e.p_item.id s.tasks).isSome = true) :
    s.disable.queue.qsize = 0
    ∧ (∀ e ∈ s.queue.heap, e.removed = false →
        lookupKey e.p_item.id s.disable.tasks = some TaskStatus.cancelled)
    ∧ s.disable.is_enabled = false
    ∧ (∀ it, (s.disable.push_item_to_queue it).1 = some SchedulerError.notAllowedError
        ∧ (s.disable.push_item_to_queue it).2 = s.disable)
    ∧ s.disable.enable.is_enabled = true := by
  have henb : s.disable.enabled = false := by
    unfold SchedulerState.disable
    rw [drainGo_enabled]
  refine ⟨?_, ?_, henb, ?_, rfl⟩
  · exact drainGo_qsize s.queue.heap.length { s with enabled := false } hinv (Nat.le_refl _)
  · exact drainGo_cancels s.queue.heap.length { s with enabled := false } hinv (Nat.le_refl _)
      hkeys
  · intro it
    constructor <;> simp [SchedulerState.push_item_to_queue, henb]

/-- Concrete instantiation of the C5 theorem: a scheduler holding two
live items with QUEUED task records; after disable() the queue is empty,
both tasks are CANCELLED, and a push is rejected without touching the
state. -/
theorem disable_drains_and_rejects_witness :
    sTwo.disable.queue.qsize = 0
    ∧ (∀ e ∈ sTwo.queue.heap, e.removed = false →
        lookupKey e.p_item.id sTwo.disable.tasks = some TaskStatus.cancelled)
    ∧ sTwo.disable.is_enabled = false
    ∧ (∀ it, (sTwo.disable.push_item_to_queue it).1 = some SchedulerError.notAllowedError
        ∧ (sTwo.disable.push_item_to_queue it).2 = sTwo.disable)
    ∧ sTwo.disable.enable.is_enabled = true :=
  disable_drains_and_rejects sTwo (by constructor <;> decide) (by decide)

end Mula
